import Mathlib

/-!
Verification of the midi-hack event-store core against its specification.

The definitions below are a shallow embedding of the Rust sources:
`src/midi.rs` / `src/lib.rs` (event model and note-name formatting),
`src/music.rs` / `src/lib.rs` (pattern matchers),
`src/key_handler.rs` (hold projection and linear event log), and
`src/main.rs` (dispatch loop / `KeyBuffer`).  Machine integers (`u8`,
`u64`, `usize`) are modelled as `Nat` (with `Int` where the source casts
to `i16`); Rust panics are modelled as `Except.error`.
-/

namespace MidiHack

/-- Status of a key inside one time bucket (src/key_handler.rs `HoldStatus`). -/
inductive HoldStatus where
  | EMPTY
  | PRESS
  | DOWN
deriving DecidableEq

/-- Message kind of a note event (src/midi.rs `MidiMessageTypes`): `NoteOn` is a
key-down, `NoteOff` a key-up (called `KeyDown` / `KeyUp` in src/lib.rs). -/
inductive MidiMessageTypes where
  | NoteOn
  | NoteOff
deriving DecidableEq

/-- One note event (src/midi.rs `KeyMessage`): logical timestamp, kind, key
number.  The key is a `u8` (0-255) modelled as `Nat`. -/
structure KeyMessage where
  timestamp : Nat
  message_type : MidiMessageTypes
  key : Nat
deriving DecidableEq

instance : Inhabited KeyMessage := ⟨⟨0, .NoteOn, 0⟩⟩

/-- The 12-element note-name table of `KeyMessage::note_name`
(src/midi.rs lines 31-33). -/
def noteTable : List String :=
  ["A", "Bb", "B", "C", "C#", "D", "Eb", "E", "F", "F#", "G", "Ab"]

/-- Offset applied before the table lookup (src/midi.rs `NOTE_SEQ_OFFSET`). -/
def NOTE_SEQ_OFFSET : Nat := 3

/-- Faithful model of `KeyMessage::note_name` before the final `.unwrap()`:
`keys.get((key + 3) % keys.len())` returns an `Option`. -/
def KeyMessage.note_nameOpt (m : KeyMessage) : Option String :=
  noteTable.get? ((m.key + NOTE_SEQ_OFFSET) % noteTable.length)

/-- The total note name (the `.unwrap()` of `note_nameOpt`; the default is
never used because the index is always in bounds). -/
def KeyMessage.note_name (m : KeyMessage) : String :=
  (m.note_nameOpt).getD ""

/-- Model of `KeyMessage::readable_note`: `format!("{}{}", note_name, key / 12)`. -/
def KeyMessage.readable_note (m : KeyMessage) : String :=
  m.note_name ++ toString (m.key / 12)

/-! ## Pattern matchers (src/music.rs, src/lib.rs `music`) -/

/-- Loop body of `detect_run` (src/music.rs lines 89-109).  `last` is the
previously visited (newer) event; the remaining events are consumed
oldest-index-first together with the increments, which this helper receives
already reversed (the source indexes `in_order_increments[incs_len - i]`).
The `(_ :: _, [])` case is unreachable under the length contract checked by
`detect_run` before this loop runs. -/
def detectRunGo : KeyMessage → List KeyMessage → List Int → Option KeyMessage
  | last, [], _ => some last
  | _, _ :: _, [] => none
  | last, cur :: rest, inc :: incs =>
    if (last.key : Int) - (cur.key : Int) = inc then detectRunGo cur rest incs
    else none

/-- Model of `detect_run` (src/music.rs lines 73-111).  The Rust function
panics when `events.len() != increments.len() + 1`; the panic is modelled as
`Except.error`. -/
def detect_run (reverse_chron_key_events : List KeyMessage)
    (in_order_increments : List Int) : Except String (Option KeyMessage) :=
  match reverse_chron_key_events with
  | [] => .error "bad parameters passed to detect_run"
  | e :: rest =>
    if rest.length = in_order_increments.length then
      .ok (detectRunGo e rest in_order_increments.reverse)
    else .error "bad parameters passed to detect_run"

/-- Loop of `scale_matches_increments` (src/lib.rs lines 130-158), consuming
the chronological events pair by pair.  `i` is `pair_based_index`, `base` is
`base_note`.  When `i > 0` and `i % 8 = 0`, the source evaluates
`proper_deltas[(pair_based_index % 8) - 1]`: the `usize` subtraction
underflows (debug) or indexes out of bounds (release), a panic modelled as
`Except.error`.  The odd-length cases are unreachable behind the
multiple-of-16 length guard. -/
def scaleLoop (proper_deltas : List Nat) :
    Nat → Nat → List KeyMessage → Except String Bool
  | _, _, [] => .ok true
  | _, _, [_] => .ok true
  | i, base, e1 :: e2 :: rest =>
    if e1.message_type ≠ .NoteOn ∨ e2.message_type ≠ .NoteOff then .ok false
    else if e1.key ≠ e2.key then .ok false
    else if 0 < i then
      if e1.key ≤ base then .ok false
      else if i % 8 = 0 then .error "attempt to subtract with overflow"
      else if e1.key - base ≠ proper_deltas.getD (i % 8 - 1) 0 then .ok false
      else scaleLoop proper_deltas (i + 1) e1.key rest
    else scaleLoop proper_deltas (i + 1) e1.key rest

/-- Model of `scale_matches_increments` (src/lib.rs lines 115-161,
duplicated in src/main.rs lines 266-312).  `proper_deltas` models the
`[u8; 7]` array of semitone deltas. -/
def scale_matches_increments (key_events : List KeyMessage)
    (proper_deltas : List Nat) : Except String Bool :=
  if key_events.length < 16 ∨ key_events.length % 16 ≠ 0 then .ok false
  else scaleLoop proper_deltas 0 (key_events.headD default).key key_events

/-- The sorted reference note-name list of `is_minor_maj_7_chord`
(src/lib.rs lines 63-64): `vec!["C", "Eb", "G", "B"]` after `sort()`. -/
def sortedChordRef : List String := ["B", "C", "Eb", "G"]

/-- Byte-lexicographic string order used by Rust `Vec<&str>::sort()`,
kernel-computable via the underlying character lists. -/
def strle (a b : String) : Prop := a.data ≤ b.data

instance : DecidableRel strle := fun a b => by
  unfold strle; infer_instance

/-- The key-down events of the log (src/lib.rs lines 70-73). -/
def keyDowns (buf : List KeyMessage) : List KeyMessage :=
  buf.filter (fun m => m.message_type == .NoteOn)

/-- The window of key-downs starting at the head of `l` and extending while
timestamps stay within 30000 ticks of the start (the inner `while` of
src/lib.rs lines 82-87, which stops at the first key-down at or beyond the
threshold).  Timestamp subtraction is `u64` subtraction on a chronological
log, hence `Nat` truncated subtraction is exact. -/
def windowFrom : List KeyMessage → List KeyMessage
  | [] => []
  | m :: rest =>
    m :: rest.takeWhile (fun x => decide (x.timestamp - m.timestamp < 30000))

/-- Sorted note names of a window (src/lib.rs lines 89-95). -/
def sortedNames (l : List KeyMessage) : List String :=
  List.insertionSort strle (l.map KeyMessage.note_name)

/-- The outer loop of `is_minor_maj_7_chord` (src/lib.rs lines 78-109):
`start_run_index` slides over every key-down index in turn. -/
def chordScan : List KeyMessage → Bool
  | [] => false
  | m :: rest =>
    if sortedNames (windowFrom (m :: rest)) = sortedChordRef then true
    else chordScan rest

/-- Model of `is_minor_maj_7_chord` over the flat log (src/lib.rs lines
62-113, duplicated in src/music.rs lines 5-56 and src/main.rs lines
197-246). -/
def is_minor_maj_7_chord (buf : List KeyMessage) : Bool :=
  if buf.length < 8 then false
  else
    let kd := keyDowns buf
    if 4 ≤ kd.length then chordScan kd else false

/-! ## Hold projection (src/key_handler.rs) -/

/-- One `(key, status)` pair inside a bucket (src/key_handler.rs `KeyStatus`). -/
structure KeyStatus where
  key : Nat
  status : HoldStatus
deriving DecidableEq

/-- The `BTreeMap<u64, Vec<KeyStatus>>` is modelled as an association list
sorted by strictly ascending timestamp. -/
abbrev TimeBucketedSparseKeyData := List (Nat × List KeyStatus)

/-- `BTreeMap::insert` on the sorted association list: insert at the ordered
position, replacing an existing bucket with the same timestamp. -/
def bmapInsert (ts : Nat) (v : List KeyStatus) :
    TimeBucketedSparseKeyData → TimeBucketedSparseKeyData
  | [] => [(ts, v)]
  | (t, w) :: rest =>
    if ts < t then (ts, v) :: (t, w) :: rest
    else if ts = t then (ts, v) :: rest
    else (t, w) :: bmapInsert ts v rest

/-- The eviction loop of `HoldData::update` (src/key_handler.rs lines
102-104): `while buf.len() >= max_bucket_count` remove the first (oldest)
bucket.  (With `max_bucket_count = 0` the Rust loop would drain the map and
panic on `first_entry().unwrap()`; the `[]` case returns the empty map
instead, which is irrelevant for the claims, all taken at capacity ≥ 1.) -/
def evictLoop (max_bucket_count : Nat) :
    TimeBucketedSparseKeyData → TimeBucketedSparseKeyData
  | [] => []
  | b :: rest =>
    if max_bucket_count ≤ (b :: rest).length then evictLoop max_bucket_count rest
    else b :: rest

/-- The hold projection (src/key_handler.rs `HoldData`). -/
structure HoldData where
  max_bucket_count : Nat
  buf : TimeBucketedSparseKeyData
deriving DecidableEq

/-- `HoldData::new` (src/key_handler.rs lines 41-46). -/
def HoldData.new (bucket_count : Nat) : HoldData :=
  { max_bucket_count := bucket_count, buf := [] }

/-- Carried-forward statuses of the most recent bucket under a new event
(src/key_handler.rs lines 67-92): drop `EMPTY` entries, send a `PRESS` or
`DOWN` entry of the released key to `EMPTY` on `NoteOff`, promote the other
`PRESS` entries to `DOWN`, keep the rest. -/
def carryForward (msg : KeyMessage) (old_holds : List KeyStatus) : List KeyStatus :=
  (old_holds.filter (fun hold => hold.status ≠ HoldStatus.EMPTY)).map
    (fun hold =>
      if msg.message_type = .NoteOff ∧ hold.key = msg.key ∧
          (hold.status = .DOWN ∨ hold.status = .PRESS) then
        { key := msg.key, status := .EMPTY }
      else if hold.status = .PRESS then { key := hold.key, status := .DOWN }
      else hold)

/-- `HoldData::update` (src/key_handler.rs lines 60-120).  The source reads
the current logical time with `crate::time::get_time()`; it is passed here
as the explicit parameter `new_ts`. -/
def HoldData.update (d : HoldData) (new_ts : Nat) (msg : KeyMessage) : HoldData :=
  match d.buf.getLast? with
  | some (old_ts, old_holds) =>
    let new_holds := carryForward msg old_holds ++
      (if msg.message_type = .NoteOn then
        [{ key := msg.key, status := HoldStatus.PRESS }] else [])
    let buf1 := if new_ts ≠ old_ts then evictLoop d.max_bucket_count d.buf else d.buf
    { d with buf := bmapInsert new_ts new_holds buf1 }
  | none =>
    if msg.message_type = .NoteOn then
      { d with buf := [(new_ts, [{ key := msg.key, status := HoldStatus.PRESS }])] }
    else d

/-- Feed a sequence of timestamped events through `HoldData::update`. -/
def runUpdates (d : HoldData) (evs : List (Nat × KeyMessage)) : HoldData :=
  evs.foldl (fun acc p => acc.update p.1 p.2) d

/-- The statuses recorded for key `k` across the buckets of the projection,
oldest bucket first. -/
def statusesFor (k : Nat) (buf : TimeBucketedSparseKeyData) : List HoldStatus :=
  (buf.map (fun p => (p.2.filter (fun e => e.key == k)).map KeyStatus.status)).flatten

/-! ## Linear event log (src/key_handler.rs `KeyDb`) -/

/-- Model of `KeyDb::last_n_messages_reverse_chron` (src/key_handler.rs lines
177-192): iterate the linear buffer in reverse, filter (`None` means the
`always_true` filter), take `n`. -/
def last_n_messages_reverse_chron (linear_buf : List KeyMessage)
    (custom_filter : Option (KeyMessage → Bool)) (n : Nat) : List KeyMessage :=
  ((linear_buf.reverse).filter (custom_filter.getD (fun _ => true))).take n

/-! ## Dispatch loop state (src/main.rs `KeyBuffer`) -/

/-- `HEARTBEATS_PER_AUTO_NEW_RUN` (src/main.rs line 17). -/
def HEARTBEATS_PER_AUTO_NEW_RUN : Nat := 100

/-- The dispatch-loop state (src/main.rs `KeyBuffer`).  The boxed
`RunEndListener` trait objects are modelled by their `on_keypress`
predicates. -/
structure KeyBuffer where
  buf : List KeyMessage
  most_recent_insert : Nat
  run_end_listeners : List (List KeyMessage → Bool)
  heartbeat_count : Nat

/-- `KeyBuffer::new` (src/main.rs lines 66-73). -/
def KeyBuffer.new : KeyBuffer :=
  { buf := [], most_recent_insert := 0, run_end_listeners := [], heartbeat_count := 0 }

/-- `KeyBuffer::end_run` (src/main.rs lines 81-86): clear the buffer, zero
the idle counter (the snapshot print has no state effect). -/
def KeyBuffer.end_run (b : KeyBuffer) : KeyBuffer :=
  { b with buf := [], heartbeat_count := 0 }

/-- `KeyBuffer::accept` followed by `call_listeners` (src/main.rs lines
75-96): append the event, update `most_recent_insert`, and end the run iff
some listener reports a run end on the updated buffer. -/
def KeyBuffer.accept (b : KeyBuffer) (message : KeyMessage) : KeyBuffer :=
  let b1 := { b with buf := b.buf ++ [message],
                     most_recent_insert := max message.timestamp b.most_recent_insert }
  let hit_end := b1.run_end_listeners.any (fun listener => listener b1.buf)
  if hit_end then b1.end_run else b1

/-- `KeyBuffer::heartbeat` (src/main.rs lines 106-111): end the run if the
idle counter already exceeds the threshold, then increment the counter. -/
def KeyBuffer.heartbeat (b : KeyBuffer) : KeyBuffer :=
  let b1 := if HEARTBEATS_PER_AUTO_NEW_RUN < b.heartbeat_count then b.end_run else b
  { b1 with heartbeat_count := b1.heartbeat_count + 1 }

/-- `n` consecutive heartbeats. -/
def KeyBuffer.heartbeats : KeyBuffer → Nat → KeyBuffer
  | b, 0 => b
  | b, n + 1 => (b.heartbeat).heartbeats n

/-! ## Claim-side model of chord detection (for claim C5)

The claim describes chord detection as *partitioning* the key-down events
into time-windowed runs and comparing the *set* of note names of some run
against the names of `{root, root+3, root+7, root+11}`.  The following
definitions state that reading literally, to be compared with the source
function `is_minor_maj_7_chord` above. -/

/-- Partition the key-downs into consecutive runs, each run extending while
timestamps stay within 30000 ticks of the run's first key-down; the next run
starts after the previous run ends.  Fuel-driven so that it computes; the
fuel `l.length` always suffices because each run is nonempty. -/
def partitionRunsAux : Nat → List KeyMessage → List (List KeyMessage)
  | 0, _ => []
  | _, [] => []
  | fuel + 1, m :: rest =>
    let tw := rest.takeWhile (fun x => decide (x.timestamp - m.timestamp < 30000))
    (m :: tw) :: partitionRunsAux fuel (rest.drop tw.length)

/-- The partition of a key-down list into 30000-tick runs. -/
def partitionRuns (l : List KeyMessage) : List (List KeyMessage) :=
  partitionRunsAux l.length l

/-- Boolean set equality of two name lists (equality of the underlying sets,
ignoring multiplicity and order). -/
def sameNameSet (xs ys : List String) : Bool :=
  xs.all (fun s => s ∈ ys) && ys.all (fun s => s ∈ xs)

/-- The note names of `{root, root+3, root+7, root+11}` semitones. -/
def chordNamesOfRoot (root : Nat) : List String :=
  [root, root + 3, root + 7, root + 11].map
    (fun k => (KeyMessage.mk 0 .NoteOn k).note_name)

/-- Chord detection as worded by claim C5: some run of the *partition* of
the key-downs has note-name *set* equal to the names of
`{root, root+3, root+7, root+11}`. -/
def chordClaimPartitionModel (buf : List KeyMessage) (root : Nat) : Bool :=
  (partitionRuns (keyDowns buf)).any
    (fun run => sameNameSet (run.map KeyMessage.note_name) (chordNamesOfRoot root))

/-! ## Concrete inputs used by counterexamples and witnesses -/

/-- A key-down / key-up pair for key `k` at timestamps `t`, `t + 1`. -/
def pairEv (k t : Nat) : List KeyMessage :=
  [⟨t, .NoteOn, k⟩, ⟨t + 1, .NoteOff, k⟩]

/-- The major-scale deltas (src/main.rs line 166). -/
def majorDeltas : List Nat := [2, 2, 1, 2, 2, 2, 1]

/-- C4-down, C4-up, ..., C5-down, C5-up: 16 events of an ascending C major
scale (keys 48, 50, 52, 53, 55, 57, 59, 60). -/
def ex16 : List KeyMessage :=
  pairEv 48 0 ++ pairEv 50 10 ++ pairEv 52 20 ++ pairEv 53 30 ++ pairEv 55 40 ++
    pairEv 57 50 ++ pairEv 59 60 ++ pairEv 60 70

/-- The same sequence with the D4 pair and the E4 pair swapped in order. -/
def ex16swap : List KeyMessage :=
  pairEv 48 0 ++ pairEv 52 10 ++ pairEv 50 20 ++ pairEv 53 30 ++ pairEv 55 40 ++
    pairEv 57 50 ++ pairEv 59 60 ++ pairEv 60 70

/-- A clean two-octave ascending C major scale: 32 events, a positive
multiple of 16. -/
def ex32 : List KeyMessage :=
  ex16 ++ pairEv 62 80 ++ pairEv 64 90 ++ pairEv 65 100 ++ pairEv 67 110 ++
    pairEv 69 120 ++ pairEv 71 130 ++ pairEv 72 140 ++ pairEv 74 150

/-- Eight chronological events whose key-downs are A0, C5, Eb5, G5, B5 within
one 30000-tick window: a sliding window starting at the second key-down is
exactly the C minor-maj7 chord, while the partition into runs has the single
run {A, C, Eb, G, B}. -/
def chordSlideBuf : List KeyMessage :=
  [⟨0, .NoteOn, 9⟩, ⟨100, .NoteOn, 60⟩, ⟨200, .NoteOn, 63⟩, ⟨300, .NoteOn, 67⟩,
   ⟨400, .NoteOn, 71⟩, ⟨450, .NoteOff, 9⟩, ⟨460, .NoteOff, 60⟩, ⟨470, .NoteOff, 63⟩]

/-- A note-on / note-off pair for one key: the press-then-release scenario of
claim C1 (the bucket timestamp is the logical-clock value at the update). -/
def pressRelease (k t1 t2 : Nat) : List (Nat × KeyMessage) :=
  [(t1, ⟨t1, .NoteOn, k⟩), (t2, ⟨t2, .NoteOff, k⟩)]

/-- Decidable form of the C1 location property: every entry for key `k`
anywhere in the projection is either `PRESS` in the bucket at `t1` or
`EMPTY` in the bucket at `t2`. -/
def holdsOnlyAt (k t1 t2 : Nat) (buf : TimeBucketedSparseKeyData) : Bool :=
  buf.all (fun p => p.2.all (fun e =>
    decide (e.key = k → (p.1 = t1 ∧ e.status = .PRESS) ∨ (p.1 = t2 ∧ e.status = .EMPTY))))

/-!
# Theorems

One theorem per claim of the specification, with counterexamples and
witnesses where applicable.
-/

/-- C6 (confirmed): the 16-event ascending C major scale C4..C5 makes
`scale_matches_increments` with deltas `[2,2,1,2,2,2,1]` return `true`, and
the same sequence with the D4 pair and the E4 pair swapped returns `false`. -/
theorem scale_matcher_positive_and_negative_case :
    scale_matches_increments ex16 majorDeltas = .ok true ∧
    scale_matches_increments ex16swap majorDeltas = .ok false :=
  ⟨rfl, rfl⟩

/-- C4 (confirmed): `detect_run` raises its contract violation (a panic,
modelled as `Except.error`) exactly when `events.len() != increments.len() + 1`;
with matching lengths it returns an ordinary `Except.ok` result and never
panics. -/
theorem detect_run_length_contract (events : List KeyMessage) (incs : List Int) :
    ((∃ e, detect_run events incs = Except.error e) ↔
      events.length ≠ incs.length + 1) ∧
    (events.length = incs.length + 1 → ∃ r, detect_run events incs = Except.ok r) := by
  constructor
  · constructor
    · rintro ⟨e, he⟩ hlen
      cases events with
      | nil => simp at hlen
      | cons e0 rest =>
        rw [detect_run] at he
        rw [List.length_cons] at hlen
        rw [if_pos (by omega)] at he
        exact Except.noConfusion he
    · intro hlen
      cases events with
      | nil => exact ⟨_, rfl⟩
      | cons e0 rest =>
        rw [detect_run, if_neg (by simp at hlen; omega)]
        exact ⟨_, rfl⟩
  · intro hlen
    cases events with
    | nil => simp at hlen
    | cons e0 rest =>
      rw [detect_run, if_pos (by simp at hlen; omega)]
      exact ⟨_, rfl⟩

/-- C10 (confirmed): for every `u8` key value (all 256 of them), the
`note_name` table lookup succeeds — the index `(key + 3) % 12` is always in
bounds, so the `unwrap` never fails — and returns the table entry at that
index; `readable_note` is that name suffixed with `key / 12`. -/
theorem note_name_total_on_u8 (k : Fin 256) (ts : Nat) (mt : MidiMessageTypes) :
    (KeyMessage.mk ts mt k.val).note_nameOpt =
      some (noteTable.getD ((k.val + 3) % 12) "") ∧
    (KeyMessage.mk ts mt k.val).readable_note =
      noteTable.getD ((k.val + 3) % 12) "" ++ toString (k.val / 12) := by
  have hlen : noteTable.length = 12 := rfl
  have hn : (k.val + 3) % 12 < 12 := Nat.mod_lt _ (by norm_num)
  have htab : ∀ n, n < 12 → noteTable.get? n = some (noteTable.getD n "") := by decide
  have h1 : (KeyMessage.mk ts mt k.val).note_nameOpt =
      some (noteTable.getD ((k.val + 3) % 12) "") := by
    show noteTable.get? ((k.val + NOTE_SEQ_OFFSET) % noteTable.length) = _
    rw [hlen]
    exact htab _ hn
  refine ⟨h1, ?_⟩
  rw [KeyMessage.readable_note, KeyMessage.note_name, h1]
  rfl

/-- C8 (confirmed): `last_n_messages_reverse_chron` returns the last `n`
events of the filtered log in newest-first order; with no filter this is the
last `n` pushed events, newest first (for `n` at most the log length the
`drop` keeps exactly the final `n` elements). -/
theorem reverse_order_query_contract (linear_buf : List KeyMessage)
    (p : KeyMessage → Bool) (n : Nat) :
    last_n_messages_reverse_chron linear_buf none n =
      (linear_buf.drop (linear_buf.length - n)).reverse ∧
    last_n_messages_reverse_chron linear_buf (some p) n =
      ((linear_buf.filter p).drop ((linear_buf.filter p).length - n)).reverse := by
  constructor
  · rw [last_n_messages_reverse_chron]
    show (linear_buf.reverse.filter (fun _ => true)).take n = _
    rw [List.filter_true, List.take_reverse]
  · rw [last_n_messages_reverse_chron]
    show (linear_buf.reverse.filter p).take n = _
    rw [List.filter_reverse, List.take_reverse]

/-- Helper: `getD` on a reversed list reads the mirrored index. -/
theorem getD_reverse_int (l : List Int) (j : Nat) (hj : j < l.length) :
    l.reverse.getD j 0 = l.getD (l.length - 1 - j) 0 := by
  rw [List.getD_eq_getElem?_getD, List.getD_eq_getElem?_getD, List.getElem?_reverse hj]

/-- Characterization of the `detect_run` loop: with the increments already
reversed, it returns the oldest event exactly when every adjacent pair of
events differs by the corresponding increment, and `none` otherwise. -/
theorem detectRunGo_spec (rest : List KeyMessage) :
    ∀ (rincs : List Int) (e0 : KeyMessage), rest.length = rincs.length →
    detectRunGo e0 rest rincs =
      if (∀ j, j < rest.length →
          (((e0 :: rest).getD j default).key : Int) -
            ((rest.getD j default).key : Int) = rincs.getD j 0) then
        some ((e0 :: rest).getLastD default)
      else none := by
  induction rest with
  | nil =>
    intro rincs e0 h
    rw [if_pos (by intro j hj; simp at hj)]
    rfl
  | cons c rs ih =>
    intro rincs e0 h
    cases rincs with
    | nil => simp at h
    | cons i ris =>
      have hr : rs.length = ris.length := by simpa using h
      by_cases h0 : (e0.key : Int) - (c.key : Int) = i
      · rw [detectRunGo, if_pos h0, ih ris c hr]
        have hiff : (∀ j, j < rs.length →
            (((c :: rs).getD j default).key : Int) -
              ((rs.getD j default).key : Int) = ris.getD j 0) ↔
            (∀ j, j < (c :: rs).length →
            (((e0 :: c :: rs).getD j default).key : Int) -
              (((c :: rs).getD j default).key : Int) = (i :: ris).getD j 0) := by
          constructor
          · intro hp j hj
            cases j with
            | zero => exact h0
            | succ j => exact hp j (by simpa using hj)
          · intro hp j hj
            exact hp (j + 1) (by simp; omega)
        rw [if_congr hiff rfl rfl]
        rfl
      · rw [detectRunGo, if_neg h0, if_neg]
        intro hall
        exact h0 (hall 0 (by simp))

/-- C3 (confirmed): with the length contract satisfied, `detect_run` returns
`Some` of the oldest event of the newest-first list exactly when for every
position `i` in `1..=K` the signed key difference `events[i-1] - events[i]`
equals `increments[K - i]`, and returns `None` on any mismatch. -/
theorem detect_run_match_semantics (events : List KeyMessage) (incs : List Int)
    (hlen : events.length = incs.length + 1) :
    (detect_run events incs = Except.ok (some (events.getLastD default)) ↔
      ∀ i, 1 ≤ i → i ≤ incs.length →
        ((events.getD (i - 1) default).key : Int) -
          ((events.getD i default).key : Int) = incs.getD (incs.length - i) 0) ∧
    ((¬ ∀ i, 1 ≤ i → i ≤ incs.length →
        ((events.getD (i - 1) default).key : Int) -
          ((events.getD i default).key : Int) = incs.getD (incs.length - i) 0) →
      detect_run events incs = Except.ok none) := by
  cases events with
  | nil => simp at hlen
  | cons e0 rest =>
    have hr : rest.length = incs.length := by simpa using hlen
    have hrun : detect_run (e0 :: rest) incs =
        Except.ok (detectRunGo e0 rest incs.reverse) := by
      rw [detect_run, if_pos hr]
    have hspec := detectRunGo_spec rest incs.reverse e0 (by simpa using hr)
    have hiff : (∀ j, j < rest.length →
        (((e0 :: rest).getD j default).key : Int) -
          ((rest.getD j default).key : Int) = incs.reverse.getD j 0) ↔
        (∀ i, 1 ≤ i → i ≤ incs.length →
          (((e0 :: rest).getD (i - 1) default).key : Int) -
            (((e0 :: rest).getD i default).key : Int) =
              incs.getD (incs.length - i) 0) := by
      constructor
      · intro hp i h1 hK
        have hj : i - 1 < rest.length := by omega
        have := hp (i - 1) hj
        rw [getD_reverse_int incs (i - 1) (by omega)] at this
        have e1 : incs.length - 1 - (i - 1) = incs.length - i := by omega
        rw [e1] at this
        have e2 : i - 1 + 1 = i := by omega
        calc (((e0 :: rest).getD (i - 1) default).key : Int) -
              (((e0 :: rest).getD i default).key : Int)
            = (((e0 :: rest).getD (i - 1) default).key : Int) -
              (((e0 :: rest).getD (i - 1 + 1) default).key : Int) := by rw [e2]
          _ = incs.getD (incs.length - i) 0 := this
      · intro hq j hj
        have h1 : 1 ≤ j + 1 := by omega
        have hK : j + 1 ≤ incs.length := by omega
        have := hq (j + 1) h1 hK
        simp only [Nat.add_sub_cancel] at this
        rw [getD_reverse_int incs j (by omega)]
        have e1 : incs.length - 1 - j = incs.length - (j + 1) := by omega
        rw [e1]
        exact this
    constructor
    · rw [hrun, hspec]
      by_cases hP : (∀ j, j < rest.length →
          (((e0 :: rest).getD j default).key : Int) -
            ((rest.getD j default).key : Int) = incs.reverse.getD j 0)
      · rw [if_pos hP]
        simp only [Except.ok.injEq, Option.some.injEq]
        constructor
        · intro _; exact hiff.mp hP
        · intro _; trivial
      · rw [if_neg hP]
        constructor
        · intro hcontra
          exact absurd hcontra (by simp)
        · intro hq
          exact absurd (hiff.mpr hq) hP
    · intro hq
      rw [hrun, hspec, if_neg (fun hP => hq (hiff.mp hP))]

/-- C3 witness: a concrete descending-thirds run of three events matching
two increments, on which `detect_run` returns the oldest event. -/
theorem detect_run_match_semantics_witness :
    detect_run [⟨30, .NoteOff, 67⟩, ⟨20, .NoteOff, 64⟩, ⟨10, .NoteOff, 60⟩] [4, 3] =
      Except.ok (some ⟨10, .NoteOff, 60⟩) :=
  (detect_run_match_semantics
    [⟨30, .NoteOff, 67⟩, ⟨20, .NoteOff, 64⟩, ⟨10, .NoteOff, 60⟩] [4, 3]
    (by decide)).1.mpr (by decide)

/-- Helper: sorting the note names of a window preserves its length. -/
theorem sortedNames_length (l : List KeyMessage) :
    (sortedNames l).length = l.length := by
  rw [sortedNames, List.length_insertionSort, List.length_map]

/-- Helper: a window is never longer than the list it starts in. -/
theorem windowFrom_length_le (l : List KeyMessage) :
    (windowFrom l).length ≤ l.length := by
  cases l with
  | nil => exact Nat.le_refl 0
  | cons m rest =>
    rw [windowFrom, List.length_cons, List.length_cons]
    exact Nat.succ_le_succ (List.Sublist.length_le (List.takeWhile_sublist _))

/-- Characterization of the chord-scan loop: it succeeds exactly when the
window starting at some key-down index has the reference sorted name list. -/
theorem chordScan_iff (l : List KeyMessage) :
    chordScan l = true ↔
      ∃ i, i < l.length ∧ sortedNames (windowFrom (l.drop i)) = sortedChordRef := by
  induction l with
  | nil => simp [chordScan]
  | cons m rest ih =>
    rw [chordScan]
    by_cases hc : sortedNames (windowFrom (m :: rest)) = sortedChordRef
    · rw [if_pos hc]
      constructor
      · intro _
        exact ⟨0, by simp, by simpa using hc⟩
      · intro _
        rfl
    · rw [if_neg hc, ih]
      constructor
      · rintro ⟨i, hi, hw⟩
        exact ⟨i + 1, by simp only [List.length_cons]; omega, by simpa using hw⟩
      · rintro ⟨i, hi, hw⟩
        cases i with
        | zero => exact absurd (by simpa using hw) hc
        | succ i =>
          exact ⟨i, by simp only [List.length_cons] at hi; omega, by simpa using hw⟩

/-- C5 counterexample: on `chordSlideBuf` the source function returns `true`
(the sliding window starting at the second key-down is exactly the C
minor-maj7 chord), while the claim's partition-into-runs reading with root C
returns `false` (the partition's only run also contains the A).  The third
conjunct checks the claim model is not vacuous: it does accept an exact
chord run. -/
theorem chord_detection_partition_counterexample :
    is_minor_maj_7_chord chordSlideBuf = true ∧
    chordClaimPartitionModel chordSlideBuf 0 = false ∧
    chordClaimPartitionModel (List.drop 1 chordSlideBuf) 0 = true :=
  ⟨by decide, by decide, by decide⟩

/-- C5 amended: over a chronological log, `is_minor_maj_7_chord` returns
`true` iff the log has at least 8 events and the window of key-downs
starting at *some* key-down index (start indices slide one by one; the
window extends while timestamps stay within 30000 ticks of its start) has
its *sorted list* of note names equal to the sorted C minor-maj7 reference
list `["B", "C", "Eb", "G"]` — the root is fixed at C and duplicate note
names in a window prevent a match. -/
theorem chord_detection_amended (buf : List KeyMessage)
    (_hchron : List.Chain' (fun a b => a.timestamp ≤ b.timestamp) buf) :
    is_minor_maj_7_chord buf = true ↔
      8 ≤ buf.length ∧ ∃ i, i < (keyDowns buf).length ∧
        sortedNames (windowFrom ((keyDowns buf).drop i)) = sortedChordRef := by
  rw [is_minor_maj_7_chord]
  by_cases h8 : buf.length < 8
  · rw [if_pos h8]
    simp only [Bool.false_eq_true, false_iff]
    rintro ⟨h, _⟩
    omega
  · rw [if_neg h8]
    by_cases h4 : 4 ≤ (keyDowns buf).length
    · rw [if_pos h4, chordScan_iff]
      constructor
      · rintro ⟨i, hi, hw⟩
        exact ⟨by omega, i, hi, hw⟩
      · rintro ⟨_, i, hi, hw⟩
        exact ⟨i, hi, hw⟩
    · rw [if_neg h4]
      simp only [Bool.false_eq_true, false_iff]
      rintro ⟨_, i, hi, hw⟩
      have hwl : (windowFrom ((keyDowns buf).drop i)).length = 4 := by
        have hc := congrArg List.length hw
        rw [sortedNames_length] at hc
        simpa using hc
      have hle : (windowFrom ((keyDowns buf).drop i)).length ≤
          (keyDowns buf).length - i := by
        have := windowFrom_length_le ((keyDowns buf).drop i)
        simpa using this
      omega

/-- C5 witness for the amended theorem, at the concrete chronological log
`chordSlideBuf`. -/
theorem chord_detection_amended_witness :
    is_minor_maj_7_chord chordSlideBuf = true :=
  (chord_detection_amended chordSlideBuf
    (by simp [chordSlideBuf, List.chain'_cons])).mpr (by decide)

/-- C7 (code bug): the guard does return `false` (never an error) on every
input whose length is under 16 or not a multiple of 16, but on the valid
32-event two-octave ascending C major scale the ninth pair evaluates
`proper_deltas[(8 % 8) - 1]`, whose `usize` subtraction underflows — a
panic, not a boolean. -/
theorem scale_matcher_guard_and_panic :
    (∀ key_events : List KeyMessage,
      key_events.length < 16 ∨ key_events.length % 16 ≠ 0 →
      scale_matches_increments key_events majorDeltas = .ok false) ∧
    scale_matches_increments ex32 majorDeltas =
      .error "attempt to subtract with overflow" := by
  constructor
  · intro key_events h
    rw [scale_matches_increments, if_pos h]
  · rfl

/-- C9 counterexample: from a fresh buffer with no listeners, 50 heartbeats
(idle counter 50, far from the threshold), then one accepted event, then 52
more heartbeats.  The event intervened before the counter ever exceeded 100,
yet the automatic reset still fires on the 52nd trailing heartbeat — the
buffer that contained the event is cleared and the counter restarts —
because `KeyBuffer::accept` never touches `heartbeat_count`. -/
theorem idle_reset_despite_intervening_event :
    (((KeyBuffer.new.heartbeats 50).accept ⟨0, .NoteOn, 60⟩).heartbeats 52).buf = [] ∧
    (((KeyBuffer.new.heartbeats 50).accept ⟨0, .NoteOn, 60⟩).heartbeats 52).heartbeat_count
      = 1 ∧
    ((KeyBuffer.new.heartbeats 50).accept ⟨0, .NoteOn, 60⟩).buf = [⟨0, .NoteOn, 60⟩] ∧
    ((KeyBuffer.new.heartbeats 50).accept ⟨0, .NoteOn, 60⟩).heartbeat_count = 50 := by
  set_option maxRecDepth 10000 in exact ⟨rfl, rfl, rfl, rfl⟩

/-- C9 amended: a Heartbeat increments the idle counter, and the automatic
run reset (buffer cleared, counter zeroed before the increment) executes
exactly when the counter at the heartbeat's arrival exceeds
`HEARTBEATS_PER_AUTO_NEW_RUN` (100); an accepted event that triggers no
listener leaves the idle counter unchanged — receiving an event does *not*
prevent the automatic reset. -/
theorem idle_auto_reset_amended (b : KeyBuffer) (m : KeyMessage)
    (hno : ∀ f ∈ b.run_end_listeners, f (b.buf ++ [m]) = false) :
    (b.heartbeat.heartbeat_count =
      if HEARTBEATS_PER_AUTO_NEW_RUN < b.heartbeat_count then 1
      else b.heartbeat_count + 1) ∧
    (HEARTBEATS_PER_AUTO_NEW_RUN < b.heartbeat_count → b.heartbeat.buf = []) ∧
    (b.heartbeat_count ≤ HEARTBEATS_PER_AUTO_NEW_RUN → b.heartbeat.buf = b.buf) ∧
    (b.accept m).heartbeat_count = b.heartbeat_count ∧
    (b.accept m).buf = b.buf ++ [m] := by
  have hhit : (b.run_end_listeners).any (fun f => f (b.buf ++ [m])) = false := by
    rw [List.any_eq_false]
    intro f hf
    simp [hno f hf]
  refine ⟨?_, ?_, ?_, ?_, ?_⟩
  · by_cases hgt : HEARTBEATS_PER_AUTO_NEW_RUN < b.heartbeat_count
    · rw [KeyBuffer.heartbeat, if_pos hgt]
      simp [KeyBuffer.end_run, hgt]
    · rw [KeyBuffer.heartbeat, if_neg hgt]
      simp [hgt]
  · intro hgt
    rw [KeyBuffer.heartbeat, if_pos hgt]
    rfl
  · intro hle
    rw [KeyBuffer.heartbeat, if_neg (by omega)]
  · rw [KeyBuffer.accept]
    simp only [hhit]
    rfl
  · rw [KeyBuffer.accept]
    simp only [hhit]
    rfl

/-- C9 witness for the amended theorem, at a fresh listener-free buffer. -/
theorem idle_auto_reset_amended_witness :
    (KeyBuffer.new.heartbeat.heartbeat_count =
      if HEARTBEATS_PER_AUTO_NEW_RUN < KeyBuffer.new.heartbeat_count then 1
      else KeyBuffer.new.heartbeat_count + 1) ∧
    (HEARTBEATS_PER_AUTO_NEW_RUN < KeyBuffer.new.heartbeat_count →
      KeyBuffer.new.heartbeat.buf = []) ∧
    (KeyBuffer.new.heartbeat_count ≤ HEARTBEATS_PER_AUTO_NEW_RUN →
      KeyBuffer.new.heartbeat.buf = KeyBuffer.new.buf) ∧
    (KeyBuffer.new.accept ⟨5, .NoteOn, 60⟩).heartbeat_count =
      KeyBuffer.new.heartbeat_count ∧
    (KeyBuffer.new.accept ⟨5, .NoteOn, 60⟩).buf =
      KeyBuffer.new.buf ++ [⟨5, .NoteOn, 60⟩] :=
  idle_auto_reset_amended KeyBuffer.new ⟨5, .NoteOn, 60⟩
    (by intro f hf; simp [KeyBuffer.new] at hf)

/-- Helper: `HoldData::update` never changes the configured capacity. -/
theorem update_max_bucket_count (d : HoldData) (ts : Nat) (m : KeyMessage) :
    (d.update ts m).max_bucket_count = d.max_bucket_count := by
  rw [HoldData.update]
  cases hg : d.buf.getLast? with
  | some p =>
    obtain ⟨t0, hs0⟩ := p
    rfl
  | none => cases hmo : m.message_type <;> rfl

/-- Helper: inserting a timestamp above every existing key appends a bucket
at the end. -/
theorem bmapInsert_append (ts : Nat) (v : List KeyStatus)
    (l : TimeBucketedSparseKeyData) (h : ∀ x ∈ l.map Prod.fst, x < ts) :
    bmapInsert ts v l = l ++ [(ts, v)] := by
  induction l with
  | nil => rfl
  | cons b rest ih =>
    obtain ⟨t, w⟩ := b
    have ht : t < ts := h t (by simp)
    rw [bmapInsert, if_neg (by omega), if_neg (by omega),
      ih (fun x hx => h x (by simp [hx]))]
    rfl

/-- Helper: eviction on a map already within capacity removes at most the
oldest bucket, and does so exactly when the map is full. -/
theorem evictLoop_of_le (mx : Nat) (l : TimeBucketedSparseKeyData)
    (h : l.length ≤ mx) :
    evictLoop mx l = if mx ≤ l.length then l.tail else l := by
  cases l with
  | nil =>
    rw [evictLoop]
    split <;> rfl
  | cons b rest =>
    rw [evictLoop]
    by_cases hmx : mx ≤ (b :: rest).length
    · rw [if_pos hmx, if_pos hmx]
      cases rest with
      | nil => rfl
      | cons c rs =>
        rw [evictLoop, if_neg (by simp at h hmx ⊢; omega)]
        rfl
    · rw [if_neg hmx, if_neg hmx]

/-- Helper: one `update` at a strictly newer timestamp on a nonempty map
within capacity evicts the oldest bucket exactly when the map is full, then
appends the new bucket. -/
theorem update_keys_step (d : HoldData) (t : Nat) (m : KeyMessage)
    (hne : d.buf ≠ [])
    (hlt : ∀ x ∈ d.buf.map Prod.fst, x < t)
    (hlen : d.buf.length ≤ d.max_bucket_count) :
    (d.update t m).buf.map Prod.fst =
      (if d.max_bucket_count ≤ d.buf.length then (d.buf.map Prod.fst).tail
       else d.buf.map Prod.fst) ++ [t] := by
  obtain ⟨p, hg⟩ : ∃ p, d.buf.getLast? = some p := by
    cases hg : d.buf.getLast? with
    | some p => exact ⟨p, rfl⟩
    | none => exact absurd (List.getLast?_eq_none_iff.mp hg) hne
  obtain ⟨lt0, lh0⟩ := p
  have hmem : (lt0, lh0) ∈ d.buf := List.mem_of_mem_getLast? hg
  have hlt0 : lt0 < t := hlt lt0 (List.mem_map_of_mem Prod.fst hmem)
  simp only [HoldData.update, hg]
  rw [if_pos (by omega : t ≠ lt0), evictLoop_of_le _ _ hlen]
  by_cases hc : d.max_bucket_count ≤ d.buf.length
  · have hsub : List.Sublist ((d.buf.tail).map Prod.fst) (d.buf.map Prod.fst) :=
      List.Sublist.map Prod.fst (List.tail_sublist d.buf)
    rw [if_pos hc, if_pos hc,
      bmapInsert_append _ _ _ (fun x hx => hlt x (hsub.subset hx)),
      List.map_append, List.map_tail]
    rfl
  · rw [if_neg hc, if_neg hc, bmapInsert_append _ _ _ hlt, List.map_append]
    rfl

/-- Helper: folding strictly-increasing timestamped events into a nonempty
projection within capacity keeps exactly the most recent
`max_bucket_count` bucket timestamps (or all of them while under
capacity). -/
theorem runUpdates_keys_aux (evs : List (Nat × KeyMessage)) :
    ∀ d : HoldData,
    List.Pairwise (· < ·) (d.buf.map Prod.fst ++ evs.map Prod.fst) →
    d.buf ≠ [] →
    d.buf.length ≤ d.max_bucket_count →
    (runUpdates d evs).buf.map Prod.fst =
      (d.buf.map Prod.fst ++ evs.map Prod.fst).drop
        (d.buf.length + evs.length - d.max_bucket_count) := by
  induction evs with
  | nil =>
    intro d hp hne hlen
    rw [runUpdates, List.foldl_nil, List.map_nil, List.append_nil, List.length_nil,
      Nat.add_zero, Nat.sub_eq_zero_of_le hlen, List.drop_zero]
  | cons e rest ih =>
    intro d hp hne hlen
    obtain ⟨t, m⟩ := e
    have hkeys : d.buf.map Prod.fst ++ ((t, m) :: rest).map Prod.fst =
        d.buf.map Prod.fst ++ t :: rest.map Prod.fst := by simp
    rw [hkeys] at hp
    obtain ⟨hpK, hpR, hcross⟩ := List.pairwise_append.mp hp
    have hlt : ∀ x ∈ d.buf.map Prod.fst, x < t :=
      fun x hx => hcross x hx t (by simp)
    have hstep := update_keys_step d t m hne hlt hlen
    have hmax := update_max_bucket_count d t m
    have hbuflen : (d.update t m).buf.length =
        (if d.max_bucket_count ≤ d.buf.length then d.buf.length - 1
         else d.buf.length) + 1 := by
      have h1 : (d.update t m).buf.length = ((d.update t m).buf.map Prod.fst).length := by
        rw [List.length_map]
      rw [h1, hstep]
      by_cases hc : d.max_bucket_count ≤ d.buf.length
      · rw [if_pos hc, if_pos hc, List.length_append, List.length_tail, List.length_map]
        rfl
      · rw [if_neg hc, if_neg hc, List.length_append, List.length_map]
        rfl
    have hne' : (d.update t m).buf ≠ [] := by
      intro hnil
      rw [hnil] at hstep
      exact absurd hstep.symm (by simp)
    have hlen' : (d.update t m).buf.length ≤ (d.update t m).max_bucket_count := by
      rw [hmax, hbuflen]
      have hb : 1 ≤ d.buf.length := List.length_pos.mpr hne
      by_cases hc : d.max_bucket_count ≤ d.buf.length
      · rw [if_pos hc]; omega
      · rw [if_neg hc]; omega
    have hrun : runUpdates d ((t, m) :: rest) = runUpdates (d.update t m) rest := by
      rw [runUpdates, runUpdates, List.foldl_cons]
    rw [hrun]
    by_cases hc : d.max_bucket_count ≤ d.buf.length
    · have hdlen : d.buf.length = d.max_bucket_count := Nat.le_antisymm hlen hc
      have hKne : d.buf.map Prod.fst ≠ [] := by
        intro hnil
        exact hne (List.map_eq_nil_iff.mp hnil)
      have htailform : (d.update t m).buf.map Prod.fst ++ rest.map Prod.fst =
          (d.buf.map Prod.fst ++ t :: rest.map Prod.fst).tail := by
        rw [hstep, if_pos hc]
        cases hK : d.buf.map Prod.fst with
        | nil => exact absurd hK hKne
        | cons k0 ks => simp
      have hp' : List.Pairwise (· < ·)
          ((d.update t m).buf.map Prod.fst ++ rest.map Prod.fst) := by
        rw [htailform]
        exact hp.sublist (List.tail_sublist _)
      have hIH := ih (d.update t m) hp' hne' hlen'
      have hb : 1 ≤ d.buf.length := List.length_pos.mpr hne
      have hbl : (d.update t m).buf.length = d.max_bucket_count := by
        rw [hbuflen, if_pos hc]
        omega
      have harith : (d.update t m).buf.length + rest.length -
          (d.update t m).max_bucket_count = rest.length := by
        rw [hmax, hbl]
        omega
      have hfinal : (d.buf.map Prod.fst ++ ((t, m) :: rest).map Prod.fst).drop
          (d.buf.length + ((t, m) :: rest).length - d.max_bucket_count) =
          (d.buf.map Prod.fst ++ t :: rest.map Prod.fst).drop (rest.length + 1) := by
        rw [hkeys]
        congr 1
        rw [List.length_cons]
        omega
      rw [hIH, harith, htailform, hfinal, ← List.drop_one, List.drop_drop,
        Nat.add_comm 1 rest.length]
    · have hKform : (d.update t m).buf.map Prod.fst ++ rest.map Prod.fst =
          d.buf.map Prod.fst ++ t :: rest.map Prod.fst := by
        rw [hstep, if_neg hc]
        simp
      have hp' : List.Pairwise (· < ·)
          ((d.update t m).buf.map Prod.fst ++ rest.map Prod.fst) := by
        rw [hKform]
        exact hp
      have hIH := ih (d.update t m) hp' hne' hlen'
      have hbl : (d.update t m).buf.length = d.buf.length + 1 := by
        rw [hbuflen, if_neg hc]
      have harith : (d.update t m).buf.length + rest.length -
          (d.update t m).max_bucket_count =
          d.buf.length + ((t, m) :: rest).length - d.max_bucket_count := by
        rw [hmax, hbl, List.length_cons]
        omega
      rw [hIH, harith, hKform, hkeys]

/-- Helper: inserting at exactly the most recent existing timestamp
overwrites that bucket in place, leaving the timestamp sequence unchanged. -/
theorem bmapInsert_last_key (l : TimeBucketedSparseKeyData) :
    ∀ (t : Nat) (v hs : List KeyStatus),
    List.Pairwise (· < ·) (l.map Prod.fst) →
    l.getLast? = some (t, hs) →
    (bmapInsert t v l).map Prod.fst = l.map Prod.fst := by
  induction l with
  | nil =>
    intro t v hs _ hl
    simp at hl
  | cons b rest ih =>
    intro t v hs hp hl
    obtain ⟨t0, w0⟩ := b
    cases rest with
    | nil =>
      have h1 : t0 = t := by
        have := List.getLast?_singleton (t0, w0)
        rw [this] at hl
        exact congrArg Prod.fst (Option.some_injective _ hl)
      rw [bmapInsert, if_neg (by omega), if_pos h1.symm]
      simp [h1]
    | cons c rs =>
      have hl' : (c :: rs).getLast? = some (t, hs) := by
        rw [← hl]
        rfl
      have hmem : t ∈ (c :: rs).map Prod.fst :=
        List.mem_map_of_mem Prod.fst (List.mem_of_mem_getLast? hl')
      have ht0 : t0 < t := by
        have := List.pairwise_cons.mp hp
        exact this.1 t (by simpa using hmem)
      rw [bmapInsert, if_neg (by omega), if_neg (by omega)]
      have := ih t v hs (List.pairwise_cons.mp hp).2 hl'
      simp only [List.map_cons]
      rw [this]
      simp

/-- C2 (confirmed): with capacity at least 1, feeding more events than
`max_bucket_count` at strictly increasing timestamps (the first event a
`NoteOn`, so that a first bucket is created) leaves the projection with
exactly `max_bucket_count` buckets, and they carry exactly the most recent
timestamps; moreover an update whose timestamp equals the most recent
bucket's coalesces in place — the timestamp sequence is unchanged, so no
eviction and no new bucket. -/
theorem bounded_retention (mx : Nat) (hmx : 1 ≤ mx)
    (evs : List (Nat × KeyMessage))
    (hchain : List.Chain' (· < ·) (evs.map Prod.fst))
    (hfirst : (evs.headD default).2.message_type = .NoteOn)
    (hlen : mx < evs.length)
    (d : HoldData) (t : Nat) (hs : List KeyStatus) (m : KeyMessage)
    (hlast : d.buf.getLast? = some (t, hs))
    (hpair : List.Pairwise (· < ·) (d.buf.map Prod.fst)) :
    (runUpdates (HoldData.new mx) evs).buf.length = mx ∧
    (runUpdates (HoldData.new mx) evs).buf.map Prod.fst =
      (evs.map Prod.fst).drop (evs.length - mx) ∧
    (d.update t m).buf.map Prod.fst = d.buf.map Prod.fst := by
  have hcoalesce : (d.update t m).buf.map Prod.fst = d.buf.map Prod.fst := by
    have hif : (if t ≠ t then evictLoop d.max_bucket_count d.buf else d.buf) = d.buf :=
      if_neg (fun h => h rfl)
    simp only [HoldData.update, hlast, hif]
    exact bmapInsert_last_key d.buf t _ hs hpair hlast
  cases evs with
  | nil => simp at hlen
  | cons e rest =>
    obtain ⟨t0, m0⟩ := e
    have hm0 : m0.message_type = .NoteOn := by simpa using hfirst
    have hd1 : (HoldData.new mx).update t0 m0 =
        HoldData.mk mx [(t0, [KeyStatus.mk m0.key HoldStatus.PRESS])] := by
      simp [HoldData.update, HoldData.new, hm0]
    have hrun : runUpdates (HoldData.new mx) ((t0, m0) :: rest) =
        runUpdates ((HoldData.new mx).update t0 m0) rest := by
      rw [runUpdates, runUpdates, List.foldl_cons]
    have hpchain : List.Pairwise (· < ·) (((t0, m0) :: rest).map Prod.fst) :=
      List.chain'_iff_pairwise.mp hchain
    have haux := runUpdates_keys_aux rest ((HoldData.new mx).update t0 m0)
      (by rw [hd1]; simpa using hpchain)
      (by rw [hd1]; simp)
      (by rw [hd1]; simpa using hmx)
    have hkeys : (runUpdates ((HoldData.new mx).update t0 m0) rest).buf.map Prod.fst =
        (((t0, m0) :: rest).map Prod.fst).drop (((t0, m0) :: rest).length - mx) := by
      rw [haux, hd1]
      simp only [List.map_cons, List.length_cons]
      congr 1
      simp only [List.length_cons, List.length_nil]
      omega
    rw [hrun]
    refine ⟨?_, hkeys, hcoalesce⟩
    have hL := congrArg List.length hkeys
    rw [List.length_map, List.length_drop, List.length_map] at hL
    rw [hL]
    simp only [List.length_cons] at hlen ⊢
    omega

/-- C2 witness: capacity 2, three events at strictly increasing timestamps —
two buckets survive, holding timestamps 2 and 3; an update of a projection at
its own most recent timestamp 5 leaves its timestamp sequence `[5]`. -/
theorem bounded_retention_witness :
    (runUpdates (HoldData.new 2)
      [(1, ⟨1, .NoteOn, 10⟩), (2, ⟨2, .NoteOn, 11⟩), (3, ⟨3, .NoteOff, 10⟩)]).buf.length
        = 2 ∧
    (runUpdates (HoldData.new 2)
      [(1, ⟨1, .NoteOn, 10⟩), (2, ⟨2, .NoteOn, 11⟩),
        (3, ⟨3, .NoteOff, 10⟩)]).buf.map Prod.fst =
      ([(1, (⟨1, .NoteOn, 10⟩ : KeyMessage)), (2, ⟨2, .NoteOn, 11⟩),
        (3, ⟨3, .NoteOff, 10⟩)].map Prod.fst).drop
          ([(1, (⟨1, .NoteOn, 10⟩ : KeyMessage)), (2, ⟨2, .NoteOn, 11⟩),
            (3, ⟨3, .NoteOff, 10⟩)].length - 2) ∧
    ((HoldData.mk 2 [(5, [⟨7, .DOWN⟩])]).update 5 ⟨9, .NoteOff, 7⟩).buf.map Prod.fst =
      (HoldData.mk 2 [(5, [⟨7, .DOWN⟩])]).buf.map Prod.fst :=
  bounded_retention 2 (by decide)
    [(1, ⟨1, .NoteOn, 10⟩), (2, ⟨2, .NoteOn, 11⟩), (3, ⟨3, .NoteOff, 10⟩)]
    (by simp [List.chain'_cons]) (by decide) (by decide)
    (HoldData.mk 2 [(5, [⟨7, .DOWN⟩])]) 5 [⟨7, .DOWN⟩] ⟨9, .NoteOff, 7⟩
    (by decide) (by simp)

/-- Helper: every entry produced by the carry-forward step takes its key
from a non-`EMPTY` entry of the previous bucket. -/
theorem carryForward_key (m : KeyMessage) (hs : List KeyStatus) :
    ∀ e ∈ carryForward m hs, ∃ h0, h0 ∈ hs ∧ h0.status ≠ HoldStatus.EMPTY ∧
      e.key = h0.key := by
  intro e he
  rw [carryForward] at he
  obtain ⟨h0, hh0, hmap⟩ := List.mem_map.mp he
  have hfil := List.mem_filter.mp hh0
  refine ⟨h0, hfil.1, by simpa using hfil.2, ?_⟩
  rw [← hmap]
  by_cases hc1 : m.message_type = .NoteOff ∧ h0.key = m.key ∧
      (h0.status = .DOWN ∨ h0.status = .PRESS)
  · rw [if_pos hc1]
    exact hc1.2.1.symm
  · rw [if_neg hc1]
    by_cases hc2 : h0.status = .PRESS
    · rw [if_pos hc2]
    · rw [if_neg hc2]

/-- Helper: members of the map after an insert are the new bucket or old
members. -/
theorem bmapInsert_mem (ts : Nat) (v : List KeyStatus)
    (l : TimeBucketedSparseKeyData) :
    ∀ p ∈ bmapInsert ts v l, p = (ts, v) ∨ p ∈ l := by
  induction l with
  | nil =>
    intro p hp
    rw [bmapInsert] at hp
    exact Or.inl (by simpa using hp)
  | cons b rest ih =>
    intro p hp
    obtain ⟨t, w⟩ := b
    rw [bmapInsert] at hp
    by_cases h1 : ts < t
    · rw [if_pos h1] at hp
      rcases List.mem_cons.mp hp with h | h
      · exact Or.inl h
      · exact Or.inr h
    · rw [if_neg h1] at hp
      by_cases h2 : ts = t
      · rw [if_pos h2] at hp
        rcases List.mem_cons.mp hp with h | h
        · exact Or.inl h
        · exact Or.inr (List.mem_cons_of_mem _ h)
      · rw [if_neg h2] at hp
        rcases List.mem_cons.mp hp with h | h
        · exact Or.inr (h ▸ List.mem_cons_self _ _)
        · rcases ih p h with h3 | h3
          · exact Or.inl h3
          · exact Or.inr (List.mem_cons_of_mem _ h3)

/-- Helper: eviction only removes buckets, it never adds any. -/
theorem evictLoop_mem (mx : Nat) (l : TimeBucketedSparseKeyData) :
    ∀ p ∈ evictLoop mx l, p ∈ l := by
  induction l with
  | nil =>
    intro p hp
    rw [evictLoop] at hp
    exact hp
  | cons b rest ih =>
    intro p hp
    rw [evictLoop] at hp
    by_cases hc : mx ≤ (b :: rest).length
    · rw [if_pos hc] at hp
      exact List.mem_cons_of_mem b (ih p hp)
    · rw [if_neg hc] at hp
      exact hp

/-- Helper: prepending preserves a known last element. -/
theorem getLast?_cons_of_getLast? {α : Type} (a : α) (l : List α) (q : α)
    (h : l.getLast? = some q) : (a :: l).getLast? = some q := by
  cases l with
  | nil => simp at h
  | cons c rs =>
    rw [List.getLast?_cons_cons]
    exact h

/-- Helper: an insert never leaves the map empty. -/
theorem bmapInsert_ne_nil (ts : Nat) (v : List KeyStatus)
    (l : TimeBucketedSparseKeyData) : bmapInsert ts v l ≠ [] := by
  cases l with
  | nil => simp [bmapInsert]
  | cons b rest =>
    obtain ⟨t, w⟩ := b
    rw [bmapInsert]
    split
    · simp
    · split <;> simp

/-- Helper: the last bucket after an insert is the inserted bucket or the
previous last bucket. -/
theorem bmapInsert_getLast (ts : Nat) (v : List KeyStatus)
    (l : TimeBucketedSparseKeyData) :
    ∀ q, (bmapInsert ts v l).getLast? = some q → q = (ts, v) ∨ l.getLast? = some q := by
  induction l with
  | nil =>
    intro q hq
    rw [bmapInsert] at hq
    exact Or.inl (by simpa using hq.symm)
  | cons b rest ih =>
    intro q hq
    obtain ⟨t, w⟩ := b
    rw [bmapInsert] at hq
    by_cases h1 : ts < t
    · rw [if_pos h1, List.getLast?_cons_cons] at hq
      exact Or.inr hq
    · rw [if_neg h1] at hq
      by_cases h2 : ts = t
      · rw [if_pos h2] at hq
        cases rest with
        | nil => exact Or.inl (by simpa using hq.symm)
        | cons c rs =>
          rw [List.getLast?_cons_cons] at hq
          exact Or.inr (getLast?_cons_of_getLast? _ _ _ hq)
      · rw [if_neg h2] at hq
        cases hX : bmapInsert ts v rest with
        | nil => exact absurd hX (bmapInsert_ne_nil ts v rest)
        | cons c rs =>
          rw [hX, List.getLast?_cons_cons] at hq
          rcases ih q (by rw [hX]; exact hq) with h3 | h3
          · exact Or.inl h3
          · exact Or.inr (getLast?_cons_of_getLast? _ _ _ h3)

/-- Helper: eviction preserves the last (most recent) bucket. -/
theorem evictLoop_getLast (mx : Nat) (l : TimeBucketedSparseKeyData) :
    ∀ q, (evictLoop mx l).getLast? = some q → l.getLast? = some q := by
  induction l with
  | nil =>
    intro q hq
    rw [evictLoop] at hq
    exact hq
  | cons b rest ih =>
    intro q hq
    rw [evictLoop] at hq
    by_cases hc : mx ≤ (b :: rest).length
    · rw [if_pos hc] at hq
      exact getLast?_cons_of_getLast? _ _ _ (ih q hq)
    · rw [if_neg hc] at hq
      exact hq

/-- Helper: one `update` by an event that is not a `NoteOn` of key `k`
preserves the two C1 invariants: entries for `k` appear only as `PRESS` at
`t1` or `EMPTY` at `t2`, and the most recent bucket holds `k` only with
status `EMPTY` (so the `EMPTY` entry is dropped and nothing for `k` is
carried into any later bucket). -/
theorem hold_inv_step (k t1 t2 : Nat) (d : HoldData) (ts : Nat) (m : KeyMessage)
    (hm : ¬(m.message_type = .NoteOn ∧ m.key = k))
    (hloc : ∀ p ∈ d.buf, ∀ e ∈ p.2, e.key = k →
      (p.1 = t1 ∧ e.status = HoldStatus.PRESS) ∨ (p.1 = t2 ∧ e.status = HoldStatus.EMPTY))
    (hlast : ∀ tl hl, d.buf.getLast? = some (tl, hl) →
      ∀ e ∈ hl, e.key = k → e.status = HoldStatus.EMPTY) :
    (∀ p ∈ (d.update ts m).buf, ∀ e ∈ p.2, e.key = k →
      (p.1 = t1 ∧ e.status = HoldStatus.PRESS) ∨
        (p.1 = t2 ∧ e.status = HoldStatus.EMPTY)) ∧
    (∀ tl hl, (d.update ts m).buf.getLast? = some (tl, hl) →
      ∀ e ∈ hl, e.key = k → e.status = HoldStatus.EMPTY) := by
  cases hg : d.buf.getLast? with
  | none =>
    by_cases hmo : m.message_type = .NoteOn
    · have hkne : m.key ≠ k := fun hk => hm ⟨hmo, hk⟩
      have hupd : (d.update ts m).buf =
          [(ts, [KeyStatus.mk m.key HoldStatus.PRESS])] := by
        simp only [HoldData.update, hg]
        rw [if_pos hmo]
      rw [hupd]
      constructor
      · intro p hp e he hek
        rcases List.mem_cons.mp hp with rfl | h
        · rcases List.mem_cons.mp he with rfl | h2
          · exact absurd hek hkne
          · simp at h2
        · simp at h
      · intro tl hl hgl e he hek
        have h0 : ts = tl ∧ [KeyStatus.mk m.key HoldStatus.PRESS] = hl := by
          simpa using hgl
        have h1 : tl = ts ∧ hl = [KeyStatus.mk m.key HoldStatus.PRESS] :=
          ⟨h0.1.symm, h0.2.symm⟩
        rw [h1.2] at he
        rcases List.mem_cons.mp he with rfl | h2
        · exact absurd hek hkne
        · simp at h2
    · have hupd : d.update ts m = d := by
        simp only [HoldData.update, hg]
        rw [if_neg hmo]
      rw [hupd]
      exact ⟨hloc, fun tl hl hgl => hlast tl hl hgl⟩
  | some p0 =>
    obtain ⟨ot, oh⟩ := p0
    have hohk : ∀ e ∈ oh, e.key = k → e.status = HoldStatus.EMPTY := hlast ot oh hg
    have hupd : (d.update ts m).buf =
        bmapInsert ts (carryForward m oh ++
          (if m.message_type = .NoteOn then [KeyStatus.mk m.key HoldStatus.PRESS]
           else []))
          (if ts ≠ ot then evictLoop d.max_bucket_count d.buf else d.buf) := by
      simp only [HoldData.update, hg]
    have hnk : ∀ e ∈ carryForward m oh ++
        (if m.message_type = .NoteOn then [KeyStatus.mk m.key HoldStatus.PRESS]
         else []), e.key ≠ k := by
      intro e he hek
      rcases List.mem_append.mp he with h | h
      · obtain ⟨h0, hh0, hne0, hkey⟩ := carryForward_key m oh e h
        exact hne0 (hohk h0 hh0 (by rw [← hkey, hek]))
      · by_cases hmo : m.message_type = .NoteOn
        · rw [if_pos hmo] at h
          rcases List.mem_cons.mp h with rfl | h2
          · exact hm ⟨hmo, hek⟩
          · simp at h2
        · rw [if_neg hmo] at h
          simp at h
    have hbuf1mem : ∀ p ∈ (if ts ≠ ot then evictLoop d.max_bucket_count d.buf
        else d.buf), p ∈ d.buf := by
      intro p hp
      by_cases hc : ts ≠ ot
      · rw [if_pos hc] at hp
        exact evictLoop_mem _ _ p hp
      · rw [if_neg hc] at hp
        exact hp
    have hbuf1last : ∀ q, (if ts ≠ ot then evictLoop d.max_bucket_count d.buf
        else d.buf).getLast? = some q → d.buf.getLast? = some q := by
      intro q hq
      by_cases hc : ts ≠ ot
      · rw [if_pos hc] at hq
        exact evictLoop_getLast _ _ q hq
      · rw [if_neg hc] at hq
        exact hq
    constructor
    · intro p hp e he hek
      rw [hupd] at hp
      rcases bmapInsert_mem _ _ _ p hp with rfl | h
      · exact absurd hek (hnk e he)
      · exact hloc p (hbuf1mem p h) e he hek
    · intro tl hl hgl e he hek
      rw [hupd] at hgl
      rcases bmapInsert_getLast _ _ _ (tl, hl) hgl with h | h
      · have h2 : tl = ts ∧ hl = carryForward m oh ++
            (if m.message_type = .NoteOn then [KeyStatus.mk m.key HoldStatus.PRESS]
             else []) := by
          constructor
          · exact congrArg Prod.fst h
          · exact congrArg Prod.snd h
        rw [h2.2] at he
        exact absurd hek (hnk e he)
      · exact hlast tl hl (hbuf1last _ h) e he hek

/-- Helper: the C1 location invariant is preserved by any sequence of
events none of which is a `NoteOn` of key `k`. -/
theorem hold_inv_fold (k t1 t2 : Nat) (rest : List (Nat × KeyMessage)) :
    ∀ d : HoldData,
    (∀ p ∈ rest, ¬(p.2.message_type = .NoteOn ∧ p.2.key = k)) →
    (∀ p ∈ d.buf, ∀ e ∈ p.2, e.key = k →
      (p.1 = t1 ∧ e.status = HoldStatus.PRESS) ∨
        (p.1 = t2 ∧ e.status = HoldStatus.EMPTY)) →
    (∀ tl hl, d.buf.getLast? = some (tl, hl) → ∀ e ∈ hl, e.key = k →
      e.status = HoldStatus.EMPTY) →
    ∀ p ∈ (runUpdates d rest).buf, ∀ e ∈ p.2, e.key = k →
      (p.1 = t1 ∧ e.status = HoldStatus.PRESS) ∨
        (p.1 = t2 ∧ e.status = HoldStatus.EMPTY) := by
  induction rest with
  | nil =>
    intro d _ hloc _
    exact hloc
  | cons ev rs ih =>
    intro d hr hloc hlast
    obtain ⟨ts, m⟩ := ev
    have hstep := hold_inv_step k t1 t2 d ts m (hr (ts, m) (by simp)) hloc hlast
    have hrw : runUpdates d ((ts, m) :: rs) = runUpdates (d.update ts m) rs := by
      rw [runUpdates, runUpdates, List.foldl_cons]
    rw [hrw]
    exact ih (d.update ts m) (fun p hp => hr p (List.mem_cons_of_mem _ hp))
      hstep.1 hstep.2

/-- Helper: the press-then-release scenario produces exactly the two buckets
`t1 ↦ [(k, PRESS)]` and `t2 ↦ [(k, EMPTY)]` — the `NoteOff` sends the
`PRESS` entry straight to `EMPTY`, with no intermediate `DOWN`. -/
theorem pressRelease_shape (k t1 t2 mx : Nat) (h12 : t1 < t2) (hmx : 2 ≤ mx) :
    runUpdates (HoldData.new mx) (pressRelease k t1 t2) =
      HoldData.mk mx [(t1, [KeyStatus.mk k HoldStatus.PRESS]),
        (t2, [KeyStatus.mk k HoldStatus.EMPTY])] := by
  have h1 : (HoldData.new mx).update t1 ⟨t1, .NoteOn, k⟩ =
      HoldData.mk mx [(t1, [KeyStatus.mk k HoldStatus.PRESS])] := by
    simp [HoldData.update, HoldData.new]
  have hif1 : t2 ≠ t1 := by omega
  have hev : evictLoop mx [(t1, [KeyStatus.mk k HoldStatus.PRESS])] =
      [(t1, [KeyStatus.mk k HoldStatus.PRESS])] := by
    rw [evictLoop, if_neg (by simp; omega)]
  have h2 : (HoldData.mk mx [(t1, [KeyStatus.mk k HoldStatus.PRESS])]).update t2
      ⟨t2, .NoteOff, k⟩ =
      HoldData.mk mx [(t1, [KeyStatus.mk k HoldStatus.PRESS]),
        (t2, [KeyStatus.mk k HoldStatus.EMPTY])] := by
    simp only [HoldData.update, List.getLast?_singleton]
    rw [if_pos hif1, hev, carryForward]
    simp only [List.filter_cons, List.filter_nil]
    rw [bmapInsert, if_neg (by omega : ¬ t2 < t1), if_neg hif1, bmapInsert]
    simp
  show ((HoldData.new mx).update t1 ⟨t1, .NoteOn, k⟩).update t2 ⟨t2, .NoteOff, k⟩ = _
  rw [h1, h2]

/-- C1 counterexample: pressing key 60 and then releasing it with no
intervening events yields the status sequence `[PRESS, EMPTY]` across the
buckets of the projection — not the claimed `[PRESS, DOWN, EMPTY]`: the
`NoteOff` of a key in `PRESS` state produces `EMPTY` directly, so `DOWN`
never appears. -/
theorem hold_lifecycle_counterexample :
    statusesFor 60 ((runUpdates (HoldData.new 16) (pressRelease 60 100 200)).buf) =
      [HoldStatus.PRESS, HoldStatus.EMPTY] ∧
    statusesFor 60 ((runUpdates (HoldData.new 16) (pressRelease 60 100 200)).buf) ≠
      [HoldStatus.PRESS, HoldStatus.DOWN, HoldStatus.EMPTY] :=
  ⟨by decide, by decide⟩

/-- C1 amended: for a key `k` pressed at tick `t1` and released at tick
`t2 > t1` with no intervening events (capacity at least 2), the statuses
observed for `k` across the buckets are exactly `PRESS, EMPTY` (no `DOWN`);
and after any further events none of which presses `k` again, every entry
for `k` anywhere in the projection is still only the `PRESS` at `t1` or the
`EMPTY` at `t2` — in particular the `EMPTY` is dropped before being carried
into any later bucket. -/
theorem hold_lifecycle_amended (k t1 t2 mx : Nat) (rest : List (Nat × KeyMessage))
    (h12 : t1 < t2) (hmx : 2 ≤ mx)
    (hrest : ∀ p ∈ rest, ¬(p.2.message_type = .NoteOn ∧ p.2.key = k)) :
    statusesFor k ((runUpdates (HoldData.new mx) (pressRelease k t1 t2)).buf) =
      [HoldStatus.PRESS, HoldStatus.EMPTY] ∧
    holdsOnlyAt k t1 t2
      ((runUpdates (HoldData.new mx) (pressRelease k t1 t2 ++ rest)).buf) = true := by
  have hshape := pressRelease_shape k t1 t2 mx h12 hmx
  constructor
  · rw [hshape]
    simp [statusesFor]
  · have hsplit : runUpdates (HoldData.new mx) (pressRelease k t1 t2 ++ rest) =
        runUpdates (runUpdates (HoldData.new mx) (pressRelease k t1 t2)) rest := by
      rw [runUpdates, runUpdates, runUpdates, List.foldl_append]
    rw [hsplit, hshape]
    have hloc0 : ∀ p ∈ (HoldData.mk mx [(t1, [KeyStatus.mk k HoldStatus.PRESS]),
        (t2, [KeyStatus.mk k HoldStatus.EMPTY])]).buf, ∀ e ∈ p.2, e.key = k →
        (p.1 = t1 ∧ e.status = HoldStatus.PRESS) ∨
          (p.1 = t2 ∧ e.status = HoldStatus.EMPTY) := by
      intro p hp e he _
      rcases List.mem_cons.mp hp with rfl | hp2
      · left
        have he2 : e = KeyStatus.mk k HoldStatus.PRESS := by simpa using he
        rw [he2]
        exact ⟨rfl, rfl⟩
      · rcases List.mem_cons.mp hp2 with rfl | hp3
        · right
          have he2 : e = KeyStatus.mk k HoldStatus.EMPTY := by simpa using he
          rw [he2]
          exact ⟨rfl, rfl⟩
        · simp at hp3
    have hlast0 : ∀ tl hl, (HoldData.mk mx [(t1, [KeyStatus.mk k HoldStatus.PRESS]),
        (t2, [KeyStatus.mk k HoldStatus.EMPTY])]).buf.getLast? = some (tl, hl) →
        ∀ e ∈ hl, e.key = k → e.status = HoldStatus.EMPTY := by
      intro tl hl hgl e he _
      have h0 : t2 = tl ∧ [KeyStatus.mk k HoldStatus.EMPTY] = hl := by
        simpa using hgl
      have h1 : tl = t2 ∧ hl = [KeyStatus.mk k HoldStatus.EMPTY] :=
        ⟨h0.1.symm, h0.2.symm⟩
      rw [h1.2] at he
      have he2 : e = KeyStatus.mk k HoldStatus.EMPTY := by simpa using he
      rw [he2]
    have hinv := hold_inv_fold k t1 t2 rest
      (HoldData.mk mx [(t1, [KeyStatus.mk k HoldStatus.PRESS]),
        (t2, [KeyStatus.mk k HoldStatus.EMPTY])]) hrest hloc0 hlast0
    rw [holdsOnlyAt, List.all_eq_true]
    intro p hp
    rw [List.all_eq_true]
    intro e he
    rw [decide_eq_true_eq]
    exact hinv p hp e he

/-- C1 witness for the amended theorem: key 60 pressed at 100, released at
200, followed by an unrelated `NoteOff` of key 61 at tick 300. -/
theorem hold_lifecycle_amended_witness :
    statusesFor 60 ((runUpdates (HoldData.new 16) (pressRelease 60 100 200)).buf) =
      [HoldStatus.PRESS, HoldStatus.EMPTY] ∧
    holdsOnlyAt 60 100 200
      ((runUpdates (HoldData.new 16)
        (pressRelease 60 100 200 ++ [(300, ⟨300, .NoteOff, 61⟩)])).buf) = true :=
  hold_lifecycle_amended 60 100 200 16 [(300, ⟨300, .NoteOff, 61⟩)]
    (by decide) (by decide) (by decide)

end MidiHack
